import Mathlib

/-!
Shallow embedding of the sonnerie storage engine, translated from
`src/metadata.rs` and `src/formatted.rs`.  Machine integers (`u64`, `i64`)
are modelled as `Nat`/`Int` with explicit wraparound where the source relies
on two's-complement arithmetic.  The sqlite tables are modelled as Lean
lists kept in rowid order; the row-format registry (`row_format.rs`) and the
block file (`blocks.rs`) are external to the two given source files, so the
row size `R` and preferred block size `P` appear as parameters and the block
file as an abstract byte function.
-/

/-- Numeral for 2^63, the magnitude of `i64::MIN`. -/
def TWO63 : Int := 9223372036854775808

/-- Numeral for 2^64. -/
def TWO64 : Int := 18446744073709551616

/-- Reinterpret a `u64` bit pattern as an `i64` (the `as i64` cast in
`Timestamp::to_sqlite`). -/
def u64AsI64 (x : Nat) : Int :=
  if (x : Int) < TWO63 then (x : Int) else (x : Int) - TWO64

/-- Two's-complement wraparound into the `i64` range, used to model
`i64::wrapping_add` / `i64::wrapping_sub`. -/
def wrapToI64 (z : Int) : Int := (z + TWO63) % TWO64 - TWO63

/-- Reinterpret an `i64` value as a `u64` (the `as u64` cast in
`Timestamp::from_sqlite`). -/
def i64AsU64 (v : Int) : Nat := (v % TWO64).toNat

/-- From `metadata.rs`: `(self.0 as i64).wrapping_add(::std::i64::MIN)`. -/
def Timestamp.to_sqlite (x : Nat) : Int := wrapToI64 (u64AsI64 x + (-TWO63))

/-- From `metadata.rs`: `Timestamp(v.wrapping_sub(::std::i64::MIN) as u64)`. -/
def Timestamp.from_sqlite (v : Int) : Nat := i64AsU64 (wrapToI64 (v - (-TWO63)))

/-- One row of the `series` table:
`series(series_id, name, generation, format)`. -/
structure SeriesRow where
  series_id : Nat
  name : String
  generation : Nat
  format : String
deriving DecidableEq, Repr

/-- One row of the `series_blocks` table:
`series_blocks(series_id, generation, first_timestamp, last_timestamp,
offset, capacity, size)`, timestamps kept in `u64` form (the sqlite
encoding is applied at the query boundary via `Timestamp.to_sqlite`). -/
structure Block where
  series_id : Nat
  generation : Nat
  first_timestamp : Nat
  last_timestamp : Nat
  offset : Nat
  capacity : Nat
  size : Nat
deriving DecidableEq, Repr

/-- The metadata database state: both tables in rowid (insertion) order,
the autoincrement counter for `series_id`, the allocation cursor
`next_offset` and the transaction `generation` (set by
`as_write_transaction`). -/
structure MetaState where
  series : List SeriesRow
  seriesNext : Nat
  series_blocks : List Block
  next_offset : Nat
  generation : Nat
deriving DecidableEq, Repr

/-- From `create_series`: `select series_id,format from series where name=?`
taking the first matching row. -/
def lookupSeries (st : MetaState) (name : String) : Option SeriesRow :=
  st.series.find? (fun r => r.name == name)

/-- From `metadata.rs` `create_series`: returns the existing id when the
stored format matches, `none` on a format mismatch, and otherwise inserts a
new row carrying the current transaction generation (the new id is the
autoincrement rowid). -/
def create_series (st : MetaState) (name format : String) :
    Option Nat × MetaState :=
  match lookupSeries st name with
  | some r => if r.format ≠ format then (none, st) else (some r.series_id, st)
  | none =>
    let row : SeriesRow :=
      { series_id := st.seriesNext, name := name,
        generation := st.generation, format := format }
    (some st.seriesNext,
      { st with series := st.series ++ [row], seriesNext := st.seriesNext + 1 })

/-- Wrapping `u64` subtraction `a - b`, used for
`last_block.capacity - last_block.size` in `insert_into_series` (release
semantics of Rust integer overflow). -/
def sub64 (a b : Nat) : Nat := (a + 18446744073709551616 - b) % 18446744073709551616

/-- The rows of `series_blocks` belonging to one series, in rowid order. -/
def sidBlocks (st : MetaState) (sid : Nat) : List Block :=
  st.series_blocks.filter (fun b => b.series_id == sid)

/-- From `metadata.rs` `last_block_for_series`: the block of the series with
the greatest `first_timestamp` (`order by first_timestamp desc limit 1`). -/
def last_block_for_series (st : MetaState) (sid : Nat) : Option Block :=
  (sidBlocks st sid).foldl
    (fun acc b =>
      match acc with
      | none => some b
      | some a => if a.first_timestamp < b.first_timestamp then some b else some a)
    none

/-- From `metadata.rs` `create_new_block`: capacity is
`capacity.max(initial_size)`, the block is appended at `next_offset` with
the current generation, and `next_offset` advances by the capacity. -/
def create_new_block (st : MetaState) (sid first last initial_size capacity : Nat) :
    MetaState :=
  let capacity' := max capacity initial_size
  let b : Block :=
    { series_id := sid, generation := st.generation,
      first_timestamp := first, last_timestamp := last,
      offset := st.next_offset, capacity := capacity', size := initial_size }
  { st with series_blocks := st.series_blocks ++ [b],
            next_offset := st.next_offset + capacity' }

/-- From `metadata.rs` `resize_existing_block`: the `series_blocks` row
keyed by `(series_id, first_timestamp)` gets the new size, new last
timestamp and the current generation. -/
def resize_existing_block (st : MetaState) (sid first newLast newSize : Nat) :
    MetaState :=
  { st with series_blocks :=
      st.series_blocks.map (fun b =>
        if b.series_id == sid && b.first_timestamp == first then
          { b with size := newSize, last_timestamp := newLast,
                   generation := st.generation }
        else b) }

/-- The generator of `insert_into_series` in its intended use: each call
appends exactly one encoded row (`R` bytes) and returns its timestamp, so
it is a finite list of timestamps followed by `None`.  This function is the
`fill_buffer` closure's while loop: `first?`/`last?`/`bufLen` are the
closure's `first_timestamp`, `last_timestamp` and `buffer.len()`
accumulators, and the result carries the remaining generator list and the
`done` flag. -/
def fillBufferAux (R nBytes : Nat) (first? last? : Option Nat) (bufLen : Nat) :
    List Nat → Except String (Option Nat × Option Nat × Nat × List Nat × Bool)
  | [] =>
    if bufLen < nBytes then .ok (first?, last?, bufLen, [], true)
    else .ok (first?, last?, bufLen, [], false)
  | t :: rest =>
    if bufLen < nBytes then
      match last? with
      | some p =>
        if t ≤ p then
          .error ("timestamps must be increasing (" ++ toString t ++ "<=" ++
            toString p ++ ")")
        else fillBufferAux R nBytes (some (first?.getD t)) (some t) (bufLen + R) rest
      | none => fillBufferAux R nBytes (some (first?.getD t)) (some t) (bufLen + R) rest
    else .ok (first?, last?, bufLen, t :: rest, false)

/-- The `fill_buffer` closure of `insert_into_series`: clears the buffer,
starts `last_timestamp` from the last block's stored last timestamp and
returns `Ok(None)` when no row was produced, otherwise
`Ok(Some((first_timestamp, last_timestamp)))` with the buffer length. -/
def fill_buffer (R nBytes : Nat) (lastBlockTs : Option Nat) (gens : List Nat) :
    Except String (Option (Nat × Nat) × Nat × List Nat × Bool) :=
  match fillBufferAux R nBytes none lastBlockTs 0 gens with
  | .error e => .error e
  | .ok (first?, last?, len, rest, done) =>
    match first?, last? with
    | some f, some l => .ok (some (f, l), len, rest, done)
    | _, _ => .ok (none, len, rest, done)

/-- The `while !done` loop of `insert_into_series`, with an explicit fuel
counter to present its termination argument (each iteration that continues
consumes at least one generator element, so fuel `gens.length + 1` always
suffices, see `insertLoopF_fuel_irrelevant`).  Each iteration re-queries
the last block, computes
`fits_in_block = (capacity - size) % preferred_block_size` (zero when there
is no last block), then either allocates a new block of the preferred
capacity or fills the tail block, resizing its metadata row. -/
def insertLoopF (R P sid : Nat) : Nat → MetaState → List Nat →
    Except String MetaState
  | 0, st, _ => .ok st
  | fuel + 1, st, gens =>
    match last_block_for_series st sid with
    | none =>
      match fill_buffer R P none gens with
      | .error e => .error e
      | .ok (none, _, _, _) => .ok st
      | .ok (some (f, l), len, rest, done) =>
        let st' := create_new_block st sid f l len P
        if done then .ok st' else insertLoopF R P sid fuel st' rest
    | some b =>
      let fits := sub64 b.capacity b.size % P
      if fits = 0 then
        match fill_buffer R P (some b.last_timestamp) gens with
        | .error e => .error e
        | .ok (none, _, _, _) => .ok st
        | .ok (some (f, l), len, rest, done) =>
          let st' := create_new_block st sid f l len P
          if done then .ok st' else insertLoopF R P sid fuel st' rest
      else
        match fill_buffer R fits (some b.last_timestamp) gens with
        | .error e => .error e
        | .ok (none, _, _, _) => .ok st
        | .ok (some (f, l), len, rest, done) =>
          let st' := resize_existing_block st sid b.first_timestamp l (b.size + len)
          if done then .ok st' else insertLoopF R P sid fuel st' rest

/-- From `metadata.rs` `insert_into_series`: the whole insert runs under a
savepoint, so an `Err` (the order check) rolls the metadata back to the
state at entry; on success the new state is released.  The returned pair is
(resulting visible state, error message if any). -/
def insert_into_series (R P : Nat) (st : MetaState) (sid : Nat)
    (gens : List Nat) : MetaState × Option String :=
  match insertLoopF R P sid (gens.length + 1) st gens with
  | .ok st' => (st', none)
  | .error e => (st, some e)

/-- An operation a write transaction can run against the metadata store
(the write operations of the Transaction API in `metadata.rs`). -/
inductive TxOp where
  | createSeriesOp (name format : String)
  | insertOp (R P sid : Nat) (gens : List Nat)
deriving DecidableEq, Repr

/-- The sqlite connection: the visible database plus the stack of states
saved by `begin`; `generation` and `next_offset` live in the in-memory
`Metadata` struct, so a rollback restores only the table contents. -/
structure Conn where
  db : MetaState
  saved : List MetaState
deriving DecidableEq, Repr

/-- The three sqlite-backed table contents of the metadata store (the
`series` table with its autoincrement counter, and `series_blocks`). -/
def MetaState.tables (st : MetaState) : List SeriesRow × Nat × List Block :=
  (st.series, st.seriesNext, st.series_blocks)

/-- `db.execute("begin")` as run by `as_write_transaction`: saves the
current state for a potential rollback. -/
def executeBegin (c : Conn) : Conn := ⟨c.db, c.db :: c.saved⟩

/-- `db.execute("rollback")` as run by `Drop for Transaction` when the
transaction was not committed: the table contents revert to the saved
state; the in-memory `next_offset` and `generation` are untouched. -/
def executeRollback (c : Conn) : Conn :=
  match c.saved with
  | s :: rest =>
    ⟨{ c.db with series := s.series, seriesNext := s.seriesNext,
                 series_blocks := s.series_blocks }, rest⟩
  | [] => c

/-- Running one write operation on the connection: both operations only
touch `db` (inserts already contain their savepoint rollback, see
`insert_into_series`). -/
def applyTxOp (c : Conn) : TxOp → Conn
  | .createSeriesOp n f => { c with db := (create_series c.db n f).2 }
  | .insertOp R P sid gens => { c with db := (insert_into_series R P c.db sid gens).1 }

/-- `Drop for Transaction` in `metadata.rs`: executes `rollback` exactly
when `commit` was never called. -/
def dropTransaction (committed : Bool) (c : Conn) : Conn :=
  if committed then c else executeRollback c

/-- An empty metadata store inside a write transaction at generation 1. -/
def mdEmpty : MetaState :=
  { series := [], seriesNext := 1, series_blocks := [], next_offset := 0,
    generation := 1 }

/-- Timestamps 1..341: with 12-byte rows they fill 4092 of the 4096-byte
preferred block size (the configuration of spec scenario 3). -/
def gens341 : List Nat := (List.range 341).map (· + 1)

/-- The committed state after inserting timestamps 1..341 into series 1
with row size 12 and preferred block size 4096. -/
def mdAfter341 : MetaState := (insert_into_series 12 4096 mdEmpty 1 gens341).1

/-- The state after a second committed insert of the single timestamp 342
into the same series. -/
def mdAfter342 : MetaState := (insert_into_series 12 4096 mdAfter341 1 [342]).1

/-- The bytes `read(block.offset, &mut block_data[..])` sees: exactly
`size` bytes of the block file starting at the block's offset (the block
file itself lives in `blocks.rs`, outside the given sources, so it is an
abstract byte function). -/
def blockBytes (file : Nat → Nat) (b : Block) : List Nat :=
  (List.range b.size).map (fun i => file (b.offset + i))

/-- Rust's `slice::chunks(n)`: split into consecutive pieces of length `n`
(the final piece may be shorter).  The fuel argument starts at the list
length, which always suffices (`chunksGo_fuel`). -/
def chunksGo (n : Nat) : Nat → List Nat → List (List Nat)
  | 0, _ => []
  | _, [] => []
  | fuel + 1, x :: xs => (x :: xs).take n :: chunksGo n fuel ((x :: xs).drop n)

/-- `block_data.chunks(format.row_size())` of `read_series` (`chunks`
panics on a zero stride, so stride zero is mapped to no chunks). -/
def chunksList (n : Nat) (l : List Nat) : List (List Nat) :=
  if n = 0 then [] else chunksGo n l.length l

/-- `BigEndian::read_u64(&sample[0..8])`: big-endian interpretation of the
first 8 bytes of a row. -/
def readU64BE (bs : List Nat) : Nat :=
  (bs.take 8).foldl (fun a b => 256 * a + b) 0

/-- The rows of one block as `read_series` decodes them: per chunk, the
big-endian timestamp prefix and the payload `&sample[8..]`. -/
def blockRows (R : Nat) (file : Nat → Nat) (b : Block) : List (Nat × List Nat) :=
  (chunksList R (blockBytes file b)).map (fun s => (readU64BE s, s.drop 8))

/-- The parsed timestamps of one block's rows. -/
def blockTs (R : Nat) (file : Nat → Nat) (b : Block) : List Nat :=
  (chunksList R (blockBytes file b)).map readU64BE

/-- From `metadata.rs` `blocks_for_range`: the `series_blocks` rows with
`series_id=? and ? >= first_timestamp and last_timestamp >= ?`, the
placeholders being the sqlite encodings of `last_ts` and `first_ts`; rows
are returned in the `(series_id, first_timestamp)` primary-key order, which
for a fixed series is ascending `first_timestamp` order. -/
def blocks_for_range (st : MetaState) (sid first_ts last_ts : Nat) : List Block :=
  st.series_blocks.filter (fun b =>
    b.series_id == sid
      && decide (Timestamp.to_sqlite b.first_timestamp ≤ Timestamp.to_sqlite last_ts)
      && decide (Timestamp.to_sqlite first_ts ≤ Timestamp.to_sqlite b.last_timestamp))

/-- The inner `for sample in block_data.chunks(row_size)` loop of
`read_series`: skip rows below `first_timestamp`, emit rows in range, and
set `done` and break at the first row above `last_timestamp`. -/
def scanChunks (first_ts last_ts : Nat) : List (List Nat) →
    List (Nat × List Nat) × Bool
  | [] => ([], false)
  | sample :: rest =>
    let t := readU64BE sample
    if first_ts ≤ t then
      if last_ts < t then ([], true)
      else
        let (emitted, d) := scanChunks first_ts last_ts rest
        ((t, sample.drop 8) :: emitted, d)
    else scanChunks first_ts last_ts rest

/-- The outer `for block in blocks` loop of `read_series`, stopping after
the block in which `done` became true. -/
def readBlocksLoop (first_ts last_ts R : Nat) (file : Nat → Nat) :
    List Block → List (Nat × List Nat)
  | [] => []
  | b :: rest =>
    let (emitted, d) := scanChunks first_ts last_ts (chunksList R (blockBytes file b))
    if d then emitted else emitted ++ readBlocksLoop first_ts last_ts R file rest

/-- From `metadata.rs` `read_series`: select the blocks intersecting the
inclusive range, read each block's `size` bytes, chunk them by the row
size and emit the rows via the output callback, collected here in call
order. -/
def read_series (R : Nat) (st : MetaState) (file : Nat → Nat)
    (sid first_ts last_ts : Nat) : List (Nat × List Nat) :=
  readBlocksLoop first_ts last_ts R file (blocks_for_range st sid first_ts last_ts)

/-- The `fill_buffer` while loop over an arbitrary pull generator, for the
termination argument: call `i` of the generator returns
`some (bytesAppended, timestamp)` or `none`, and an explicit fuel counter
bounds the number of loop iterations.  `none` as overall result means the
fuel ran out with the loop still running; `some` carries the loop's
outcome (order failure or the final `last?`, buffer length and `done`
flag). -/
def fillBufferGen (gen : Nat → Option (Nat × Nat)) (nBytes : Nat) :
    Nat → Nat → Nat → Option Nat →
    Option (Except String (Option Nat × Nat × Bool))
  | 0, _, _, _ => none
  | fuel + 1, idx, bufLen, last? =>
    if bufLen < nBytes then
      match gen idx with
      | none => some (.ok (last?, bufLen, true))
      | some (bytes, t) =>
        match last? with
        | some p =>
          if t ≤ p then
            some (.error ("timestamps must be increasing (" ++ toString t ++
              "<=" ++ toString p ++ ")"))
          else fillBufferGen gen nBytes fuel (idx + 1) (bufLen + bytes) (some t)
        | none => fillBufferGen gen nBytes fuel (idx + 1) (bufLen + bytes) (some t)
    else some (.ok (last?, bufLen, false))

/-- One parsed input line of `add_from_stream_with_fmt`: the tokenization
by `escape_string::split_one` and the timestamp parsing are external
library calls, so lines are modelled post-tokenization as
`key timestamp format values`. -/
structure InLine where
  key : String
  ts : Nat
  format : String
  values : String
deriving DecidableEq, Repr

/-- The error raised by the ingestion functions when a line's format
disagrees with the format stored in the database for its key. -/
inductive WriteFailure where
  | HeterogeneousFormats (key stored given : String)
deriving DecidableEq, Repr

/-- The loop state of `add_from_stream_with_fmt`: the `key_format_identified`
cache and the records passed to `tx.add_record` so far (key, format,
timestamp). -/
structure StreamState where
  key_format_identified : String
  records : List (String × String × Nat)
deriving DecidableEq, Repr

/-- One iteration of the `add_from_stream_with_fmt` read loop in
`formatted.rs`: when checking is on and the key differs from
`key_format_identified`, the stored format for the key (if any) is compared
with the line's own format — a mismatch raises `HeterogeneousFormats` —
and the cache is updated; in every non-error case `tx.add_record` runs. -/
def addLineWithFmt (nocheck : Bool) (dbFmt : String → Option String)
    (st : StreamState) (ln : InLine) : Except WriteFailure StreamState :=
  if ¬ nocheck ∧ st.key_format_identified ≠ ln.key then
    match dbFmt ln.key with
    | some stored =>
      if stored ≠ ln.format then
        .error (.HeterogeneousFormats ln.key stored ln.format)
      else
        .ok { key_format_identified := ln.key,
              records := st.records ++ [(ln.key, ln.format, ln.ts)] }
    | none =>
      .ok { key_format_identified := ln.key,
            records := st.records ++ [(ln.key, ln.format, ln.ts)] }
  else
    .ok { st with records := st.records ++ [(ln.key, ln.format, ln.ts)] }

/-- The whole `add_from_stream_with_fmt` read loop over a list of
(non-empty, already tokenized) input lines. -/
def add_from_stream_with_fmt (nocheck : Bool) (dbFmt : String → Option String) :
    List InLine → StreamState → Except WriteFailure StreamState
  | [], st => .ok st
  | ln :: rest, st =>
    match addLineWithFmt nocheck dbFmt st ln with
    | .error e => .error e
    | .ok st' => add_from_stream_with_fmt nocheck dbFmt rest st'

/-- Modelled from the spec: `escape_string::escape` (external crate)
backslash-escapes whitespace; the backslash itself must also be escaped
to keep the encoding invertible. -/
def escapeChar (c : Char) : List Char :=
  if c.isWhitespace ∨ c = '\\' then ['\\', c] else [c]

/-- Escape a whole key for the textual stream protocol. -/
def escapeStr (s : String) : String := String.mk ((s.data.map escapeChar).flatten)

/-- Decimal rendering padded with leading zeros to the given width. -/
def padNum (w n : Nat) : String :=
  let s := Nat.repr n
  String.mk (List.replicate (w - s.length) '0') ++ s

/-- Modelled from the spec: the proleptic-Gregorian date for a day count
since 1970-01-01 (the civil-from-days algorithm), used by the external
`chrono` crate when `print_record` displays a `NaiveDateTime`. -/
def civilFromDays (z : Nat) : Nat × Nat × Nat :=
  let z' := z + 719468
  let era := z' / 146097
  let doe := z' % 146097
  let yoe := (doe - doe / 1460 + doe / 36524 - doe / 146096) / 365
  let y := yoe + era * 400
  let doy := doe - (365 * yoe + yoe / 4 - yoe / 100)
  let mp := (5 * doy + 2) / 153
  let d := doy - (153 * mp + 2) / 5 + 1
  let m := if mp < 10 then mp + 3 else mp - 9
  (if m ≤ 2 then y + 1 else y, m, d)

/-- Modelled from the spec: `chrono`'s fractional-second suffix for the
`%.f`-style display — empty when the nanosecond part is zero, otherwise a
dot followed by 3, 6 or 9 digits. -/
def fracStr (ns : Nat) : String :=
  if ns = 0 then ""
  else if ns % 1000000 = 0 then "." ++ padNum 3 (ns / 1000000)
  else if ns % 1000 = 0 then "." ++ padNum 6 (ns / 1000)
  else "." ++ padNum 9 ns

/-- The `%F` (date) part of the displayed timestamp, from the seconds part
of the epoch-nanosecond value. -/
def isoDatePart (ts : Nat) : String :=
  let days := ts / 1000000000 / 86400
  let ymd := civilFromDays days
  padNum 4 ymd.1 ++ "-" ++ padNum 2 ymd.2.1 ++ "-" ++ padNum 2 ymd.2.2

/-- The `%T` (time) part of the displayed timestamp with the fractional
suffix, from the seconds-of-day and nanosecond parts. -/
def isoTimePart (ts : Nat) : String :=
  let sod := ts / 1000000000 % 86400
  padNum 2 (sod / 3600) ++ ":" ++ padNum 2 (sod % 3600 / 60) ++ ":" ++
    padNum 2 (sod % 60) ++ fracStr (ts % 1000000000)

/-- Modelled from the spec: the display of
`chrono::NaiveDateTime::from_timestamp(ts / 1e9, ts % 1e9)` — ISO-8601
`%FT%T` with date and time separated by the letter `T` (plus `chrono`'s
fractional suffix when the nanosecond part is nonzero). -/
def isoOfNanos (ts : Nat) : String := isoDatePart ts ++ "T" ++ isoTimePart ts

/-- A record as `print_record` receives it: the key, the format string and
the stored value, whose first 8 bytes are the big-endian timestamp. -/
structure OwnedRecord where
  key : String
  format : String
  value : List Nat
deriving DecidableEq, Repr

/-- From `formatted.rs` `print_record`: writes the escaped key, the
timestamp of the first 8 value bytes displayed as a `NaiveDateTime`, and
the decoded values, separated by tabs.  The value decoding
(`fmt.to_protocol_format`) belongs to the external row-format registry and
is passed in as a function. -/
def print_record (decode : List Nat → String) (rec : OwnedRecord) : String :=
  escapeStr rec.key ++ "\t" ++ isoOfNanos (readU64BE rec.value) ++ "\t" ++
    decode (rec.value.drop 8)

/-- From `formatted.rs` `print_record_nanos`: the same line with the
timestamp as decimal epoch nanoseconds. -/
def print_record_nanos (decode : List Nat → String) (rec : OwnedRecord) : String :=
  escapeStr rec.key ++ "\t" ++ Nat.repr (readU64BE rec.value) ++ "\t" ++
    decode (rec.value.drop 8)

/-- The timestamp sequence against which the order check of
`insert_into_series` runs: the stored last timestamp of the newest block
(when present) followed by the produced timestamps. -/
def withLast (p? : Option Nat) (l : List Nat) : List Nat :=
  match p? with
  | some p => p :: l
  | none => l

/-- The value of the `first_timestamp` accumulator of `fill_buffer` after
consuming `consumed`: kept if already set, else the first consumed
timestamp. -/
def firstOut (first? : Option Nat) (consumed : List Nat) : Option Nat :=
  match first? with
  | some f => some f
  | none => consumed.head?

/-- The value of the `last_timestamp` accumulator of `fill_buffer` after
consuming `consumed`: the last consumed timestamp, or the carried-over
value when nothing was consumed. -/
def lastOut (last? : Option Nat) (consumed : List Nat) : Option Nat :=
  match consumed.getLast? with
  | some x => some x
  | none => last?

/-- Well-formedness of one series' block list as `insert_into_series`
relies on it: ascending `first_timestamp` (the primary-key order, so the
newest block is the final row) and nonempty timestamp ranges. -/
def BlocksWF (l : List Block) : Prop :=
  List.Chain' (fun a b => a.first_timestamp < b.first_timestamp) l
    ∧ ∀ b ∈ l, b.first_timestamp ≤ b.last_timestamp

/-- The content invariant (I2) of one committed block as `read_series`
relies on it: timestamps fit in `u64`, the parsed row timestamps are
strictly increasing and their extremes equal the block's stored
`first_timestamp` and `last_timestamp`. -/
def BlockContentWF (R : Nat) (file : Nat → Nat) (b : Block) : Prop :=
  b.first_timestamp < 18446744073709551616
  ∧ b.last_timestamp < 18446744073709551616
  ∧ List.Chain' (· < ·) (blockTs R file b)
  ∧ (blockTs R file b).head? = some b.first_timestamp
  ∧ (blockTs R file b).getLast? = some b.last_timestamp

/-- Example block-file bytes for the read-path checks: three 9-byte rows
with big-endian timestamps 5, 10, 20 and one payload byte each. -/
def fileEx : Nat → Nat :=
  fun i =>
    List.getD
      [0, 0, 0, 0, 0, 0, 0, 5, 50,
       0, 0, 0, 0, 0, 0, 0, 10, 60,
       0, 0, 0, 0, 0, 0, 0, 20, 70] i 0

/-- Example committed metadata for the read-path checks: one series with
two blocks covering timestamp ranges [5, 10] and [20, 20]. -/
def mdRead : MetaState :=
  { series := [], seriesNext := 1,
    series_blocks :=
      [{ series_id := 1, generation := 1, first_timestamp := 5,
         last_timestamp := 10, offset := 0, capacity := 18, size := 18 },
       { series_id := 1, generation := 1, first_timestamp := 20,
         last_timestamp := 20, offset := 18, capacity := 9, size := 9 }],
    next_offset := 27, generation := 1 }

theorem fillBufferAux_rest_length_le (R nBytes : Nat) :
    ∀ (gens : List Nat) (first? last? : Option Nat) (bufLen : Nat)
      (f l : Option Nat) (len : Nat) (rest : List Nat) (done : Bool),
      fillBufferAux R nBytes first? last? bufLen gens = .ok (f, l, len, rest, done) →
      rest.length ≤ gens.length := by
  intro gens
  induction gens with
  | nil =>
    intro first? last? bufLen f l len rest done h
    unfold fillBufferAux at h
    split at h <;> simp_all
  | cons t rest' ih =>
    intro first? last? bufLen f l len rest done h
    unfold fillBufferAux at h
    split at h
    · split at h
      · split at h
        · simp_all
        · exact le_trans (ih _ _ _ _ _ _ _ _ h) (Nat.le_succ _)
      · exact le_trans (ih _ _ _ _ _ _ _ _ h) (Nat.le_succ _)
    · simp only [Except.ok.injEq, Prod.mk.injEq] at h
      simp [← h.2.2.2.1]

theorem fillBufferAux_consumed (R nBytes : Nat) :
    ∀ (gens : List Nat) (last? : Option Nat) (bufLen : Nat)
      (f0 : Nat) (l : Option Nat) (len : Nat) (rest : List Nat) (done : Bool),
      fillBufferAux R nBytes none last? bufLen gens = .ok (some f0, l, len, rest, done) →
      rest.length < gens.length := by
  intro gens
  cases gens with
  | nil =>
    intro last? bufLen f0 l len rest done h
    unfold fillBufferAux at h
    split at h <;> simp_all
  | cons t rest' =>
    intro last? bufLen f0 l len rest done h
    unfold fillBufferAux at h
    split at h
    · split at h
      · split at h
        · simp_all
        · exact Nat.lt_succ_of_le (fillBufferAux_rest_length_le R nBytes _ _ _ _ _ _ _ _ _ h)
      · exact Nat.lt_succ_of_le (fillBufferAux_rest_length_le R nBytes _ _ _ _ _ _ _ _ _ h)
    · simp_all

theorem fill_buffer_consumed (R nBytes : Nat) (lastBlockTs : Option Nat)
    (gens : List Nat) (f0 l0 : Nat) (len : Nat) (rest : List Nat) (done : Bool)
    (h : fill_buffer R nBytes lastBlockTs gens = .ok (some (f0, l0), len, rest, done)) :
    rest.length < gens.length := by
  unfold fill_buffer at h
  split at h
  · exact absurd h (by simp)
  · rename_i heq
    split at h
    · rename_i f l hf hl
      simp only [Except.ok.injEq, Prod.mk.injEq] at h
      obtain ⟨_, _, hrest, _⟩ := h
      subst hrest
      exact fillBufferAux_consumed R nBytes _ _ _ _ _ _ _ _ heq
    · exact absurd h (by simp)

theorem to_sqlite_eq (x : Nat) (hx : (x : Int) < TWO64) :
    Timestamp.to_sqlite x = (x : Int) - TWO63 := by
  unfold Timestamp.to_sqlite wrapToI64 u64AsI64 TWO63 TWO64 at *
  split <;> omega

theorem from_sqlite_eq (v : Int) (h1 : -TWO63 ≤ v) (h2 : v < TWO63) :
    (Timestamp.from_sqlite v : Int) = v + TWO63 := by
  unfold Timestamp.from_sqlite wrapToI64 i64AsU64 TWO63 TWO64 at *
  omega

set_option maxRecDepth 100000 in
/-- C1: the claimed invariant `size ≤ capacity` is violated by the code.
With row size 12 and preferred block size 4096, inserting timestamps 1..341
commits a block with size 4092 and capacity 4096 (4 free bytes); a
subsequent committed insert of timestamp 342 succeeds without error and
raises the block's stored size to 4104, which exceeds its capacity 4096
(the 12-byte row is written across the block's upper boundary). -/
theorem c1_insert_raises_size_above_capacity :
    (mdAfter341.series_blocks.map fun b => (b.size, b.capacity)) = [(4092, 4096)]
      ∧ (insert_into_series 12 4096 mdAfter341 1 [342]).2 = none
      ∧ (mdAfter342.series_blocks.map fun b => (b.size, b.capacity)) = [(4104, 4096)]
      ∧ ∃ b ∈ mdAfter342.series_blocks, ¬ b.size ≤ b.capacity := by
  refine ⟨by decide, by decide, by decide, ?_⟩
  refine ⟨(insert_into_series 12 4096 mdAfter341 1 [342]).1.series_blocks.head (by decide), ?_, ?_⟩
  · exact List.head_mem _
  · decide

set_option maxRecDepth 100000 in
/-- C2: with the tail block at size 4092 of capacity 4096 (4 free bytes,
fewer than the row size 12), the claim says a new block must be allocated
and at most 0 = (4 rounded down to a multiple of 12) bytes written to the
tail; the code instead computes `fits_in_block = 4 % 4096 = 4 ≠ 0`, takes
the extend branch, and writes a full 12-byte row into the tail block: no
new block appears and the tail grows by 12 bytes. -/
theorem c2_extends_tail_with_fewer_than_row_size_free :
    (mdAfter341.series_blocks.map fun b => (b.capacity - b.size)) = [4]
      ∧ 4 < 12
      ∧ sub64 4096 4092 % 4096 = 4
      ∧ mdAfter342.series_blocks.length = 1
      ∧ (mdAfter342.series_blocks.map fun b => b.size) = [4092 + 12] := by
  exact ⟨by decide, by decide, by decide, by decide, by decide⟩

/-- C7: the timestamp-to-sqlite mapping is the order-preserving bijection
`x ↦ x + i64::MIN`: `from_sqlite ∘ to_sqlite` is the identity on all `u64`
values, `to_sqlite ∘ from_sqlite` is the identity on all `i64` values, and
unsigned comparison of `u64` values agrees with signed comparison of their
images. -/
theorem c7_timestamp_sqlite_bijection :
    (∀ x : Nat, (x : Int) < TWO64 →
      Timestamp.from_sqlite (Timestamp.to_sqlite x) = x)
    ∧ (∀ v : Int, -TWO63 ≤ v → v < TWO63 →
      Timestamp.to_sqlite (Timestamp.from_sqlite v) = v)
    ∧ (∀ x y : Nat, (x : Int) < TWO64 → (y : Int) < TWO64 →
      (x < y ↔ Timestamp.to_sqlite x < Timestamp.to_sqlite y)) := by
  refine ⟨?_, ?_, ?_⟩
  · intro x hx
    have h1 := to_sqlite_eq x hx
    unfold Timestamp.from_sqlite wrapToI64 i64AsU64 TWO63 TWO64 at *
    omega
  · intro v h1 h2
    have h3 := from_sqlite_eq v h1 h2
    have h4 : ((Timestamp.from_sqlite v : Nat) : Int) < TWO64 := by
      unfold TWO63 TWO64 at *; omega
    have h5 := to_sqlite_eq _ h4
    unfold TWO63 TWO64 at *
    omega
  · intro x y hx hy
    have h1 := to_sqlite_eq x hx
    have h2 := to_sqlite_eq y hy
    rw [h1, h2]
    unfold TWO63 TWO64 at *
    omega

/-- Witness for C7 at the extremes: 0 and `u64::MAX` round-trip (mapping to
`i64::MIN` and `i64::MAX`), `i64::MIN` round-trips the other way, and
`0 < u64::MAX` is preserved as a signed comparison. -/
theorem c7_timestamp_sqlite_bijection_witness :
    Timestamp.from_sqlite (Timestamp.to_sqlite 0) = 0
    ∧ Timestamp.from_sqlite (Timestamp.to_sqlite 18446744073709551615) =
        18446744073709551615
    ∧ Timestamp.to_sqlite (Timestamp.from_sqlite (-9223372036854775808)) =
        -9223372036854775808
    ∧ (0 < 18446744073709551615 ↔
        Timestamp.to_sqlite 0 < Timestamp.to_sqlite 18446744073709551615) :=
  ⟨c7_timestamp_sqlite_bijection.1 0 (by decide),
   c7_timestamp_sqlite_bijection.1 18446744073709551615 (by decide),
   c7_timestamp_sqlite_bijection.2.1 (-9223372036854775808) (by decide) (by decide),
   c7_timestamp_sqlite_bijection.2.2 0 18446744073709551615 (by decide) (by decide)⟩

theorem lookupSeries_append_of_none (st : MetaState) (n : String)
    (row : SeriesRow) (rows : List SeriesRow)
    (h : lookupSeries st n = none) :
    ({ st with series := st.series ++ row :: rows } : MetaState).series.find?
      (fun r => r.name == n) = (row :: rows).find? (fun r => r.name == n) := by
  unfold lookupSeries at h
  simp only [List.find?_append, h]
  rfl

/-- C5: `create_series` returns the existing id when the stored format
matches (leaving the store unchanged), returns `none` on a format mismatch
(inserting nothing), inserts a row with the current transaction generation
and returns its new autoincrement id when the name is absent, and is
consequently idempotent: two calls with the same name and format return the
same id. -/
theorem c5_create_series_idempotent :
    (∀ (st : MetaState) (n f : String) (r : SeriesRow),
      lookupSeries st n = some r →
      create_series st n f = (if r.format = f then some r.series_id else none, st))
    ∧ (∀ (st : MetaState) (n f : String),
      lookupSeries st n = none →
      (create_series st n f).1 = some st.seriesNext ∧
      lookupSeries (create_series st n f).2 n =
        some ⟨st.seriesNext, n, st.generation, f⟩)
    ∧ (∀ (st : MetaState) (n f : String),
      (create_series st n f).1 = (create_series (create_series st n f).2 n f).1) := by
  have h1 : ∀ (st : MetaState) (n f : String) (r : SeriesRow),
      lookupSeries st n = some r →
      create_series st n f = (if r.format = f then some r.series_id else none, st) := by
    intro st n f r h
    have hcs : create_series st n f =
        if r.format ≠ f then (none, st) else (some r.series_id, st) := by
      unfold create_series
      rw [h]
    rw [hcs]
    by_cases hf : r.format = f
    · rw [if_neg (fun hc => hc hf), if_pos hf]
    · rw [if_pos hf, if_neg hf]
  have h2 : ∀ (st : MetaState) (n f : String),
      lookupSeries st n = none →
      (create_series st n f).1 = some st.seriesNext ∧
      lookupSeries (create_series st n f).2 n =
        some ⟨st.seriesNext, n, st.generation, f⟩ := by
    intro st n f h
    have hfind : st.series.find? (fun r => r.name == n) = none := h
    unfold create_series
    rw [h]
    refine ⟨rfl, ?_⟩
    unfold lookupSeries
    simp [List.find?_append, hfind, List.find?]
  refine ⟨h1, h2, ?_⟩
  intro st n f
  cases h : lookupSeries st n with
  | some r =>
    have hc := h1 st n f r h
    have h2nd : create_series (create_series st n f).2 n f = create_series st n f := by
      rw [hc]
      exact hc
    rw [h2nd]
  | none =>
    obtain ⟨ha, hb⟩ := h2 st n f h
    rw [ha, h1 _ n f _ hb]
    simp

/-- Witness for C5: creating series "a" with format "f64" in the empty
store yields id 1; re-creating it with format "u32" is rejected without
changing the store; re-creating it with format "f64" returns id 1 again. -/
theorem c5_create_series_idempotent_witness :
    (create_series mdEmpty "a" "f64").1 = some 1
    ∧ create_series ((create_series mdEmpty "a" "f64").2) "a" "u32"
        = (none, (create_series mdEmpty "a" "f64").2)
    ∧ (create_series mdEmpty "a" "f64").1
        = (create_series ((create_series mdEmpty "a" "f64").2) "a" "f64").1 := by
  refine ⟨(c5_create_series_idempotent.2.1 mdEmpty "a" "f64" (by decide)).1, ?_,
    c5_create_series_idempotent.2.2 mdEmpty "a" "f64"⟩
  have h := c5_create_series_idempotent.1 ((create_series mdEmpty "a" "f64").2)
    "a" "u32" ⟨1, "a", 1, "f64"⟩ (by decide)
  rw [h]
  decide

theorem applyTxOp_saved (c : Conn) (op : TxOp) : (applyTxOp c op).saved = c.saved := by
  cases op <;> rfl

theorem foldl_applyTxOp_saved (ops : List TxOp) :
    ∀ c : Conn, (ops.foldl applyTxOp c).saved = c.saved := by
  induction ops with
  | nil => intro c; rfl
  | cons op rest ih => intro c; rw [List.foldl_cons, ih, applyTxOp_saved]

/-- C6: a write transaction that is dropped without commit leaves the table
contents of the metadata store exactly as they were before `begin`, no
matter which sequence of creates and inserts it ran; and an
`insert_into_series` call that returns an error leaves the visible state
unchanged (its savepoint is rolled back). -/
theorem c6_rollback_neutrality :
    (∀ (s : MetaState) (ops : List TxOp),
      (dropTransaction false (ops.foldl applyTxOp (executeBegin ⟨s, []⟩))).db.tables
        = s.tables)
    ∧ (∀ (R P : Nat) (st : MetaState) (sid : Nat) (gens : List Nat),
      (insert_into_series R P st sid gens).2.isSome = true →
      (insert_into_series R P st sid gens).1 = st) := by
  constructor
  · intro s ops
    have hsaved : (ops.foldl applyTxOp (executeBegin ⟨s, []⟩)).saved = [s] :=
      foldl_applyTxOp_saved ops (executeBegin ⟨s, []⟩)
    show (executeRollback (ops.foldl applyTxOp (executeBegin ⟨s, []⟩))).db.tables
      = s.tables
    cases hfold : ops.foldl applyTxOp (executeBegin ⟨s, []⟩) with
    | mk db saved =>
      rw [hfold] at hsaved
      simp only at hsaved
      subst hsaved
      rfl
  · intro R P st sid gens h
    unfold insert_into_series at *
    cases hloop : insertLoopF R P sid (gens.length + 1) st gens with
    | ok st' => rw [hloop] at h; simp at h
    | error e => rfl

/-- Witness for C6: a transaction that creates a series, inserts a row and
is then dropped leaves the empty store's tables intact, and an insert whose
generator repeats a timestamp (an order error) leaves its input state
unchanged. -/
theorem c6_rollback_neutrality_witness :
    (dropTransaction false
      (([TxOp.createSeriesOp "a" "f64", TxOp.insertOp 12 4096 1 [10, 20]]).foldl
        applyTxOp (executeBegin ⟨mdEmpty, []⟩))).db.tables = mdEmpty.tables
    ∧ (insert_into_series 12 4096 mdEmpty 1 [5, 5]).1 = mdEmpty :=
  ⟨c6_rollback_neutrality.1 mdEmpty _,
   c6_rollback_neutrality.2 12 4096 mdEmpty 1 [5, 5] (by decide)⟩

/-- C10: the inner buffer-filling loop of `insert_into_series` terminates
for every generator whose `Some` returns each append at least one byte:
the buffer strictly grows toward the byte target on every `Some` return,
so fuel exceeding the remaining byte gap is never exhausted — the loop
ends by filling the buffer, by the generator returning `None`, or with an
order error. -/
theorem c10_fill_buffer_loop_terminates
    (gen : Nat → Option (Nat × Nat))
    (hgrow : ∀ i b t, gen i = some (b, t) → 1 ≤ b) :
    ∀ (fuel nBytes idx bufLen : Nat) (last? : Option Nat),
      nBytes - bufLen < fuel →
      fillBufferGen gen nBytes fuel idx bufLen last? ≠ none := by
  intro fuel
  induction fuel with
  | zero =>
    intro nBytes idx bufLen last? h
    omega
  | succ f ih =>
    intro nBytes idx bufLen last? h
    unfold fillBufferGen
    by_cases hlt : bufLen < nBytes
    · rw [if_pos hlt]
      cases hg : gen idx with
      | none => simp
      | some bt =>
        obtain ⟨bytes, t⟩ := bt
        have hb := hgrow idx bytes t hg
        cases last? with
        | some p =>
          dsimp only
          split
          · simp
          · exact ih nBytes (idx + 1) (bufLen + bytes) (some t) (by omega)
        | none =>
          dsimp only
          exact ih nBytes (idx + 1) (bufLen + bytes) (some t) (by omega)
    · rw [if_neg hlt]
      simp

/-- Witness for C10: a generator producing three 12-byte rows and then
`None` finishes the loop within the fuel bound `nBytes + 1`. -/
theorem c10_fill_buffer_loop_terminates_witness :
    fillBufferGen (fun i => if i < 3 then some (12, 10 * i) else none)
      4096 4097 0 0 none ≠ none :=
  c10_fill_buffer_loop_terminates
    (fun i => if i < 3 then some (12, 10 * i) else none)
    (by
      intro i b t h
      dsimp only at h
      split at h
      · simp only [Option.some.injEq, Prod.mk.injEq] at h
        omega
      · exact absurd h (by simp))
    4097 4096 0 0 none (by omega)

/-- C9: in `add_from_stream_with_fmt` with checking enabled, a line whose
key equals the most recently checked key (`key_format_identified`) skips
the stored-format comparison entirely: whatever format the database stores
for that key and whatever the line's own format is, no
`HeterogeneousFormats` error is raised and the record is added, after
which processing continues on the remaining lines. -/
theorem c9_format_check_skipped_for_repeated_key :
    ∀ (dbFmt : String → Option String) (st : StreamState) (ln : InLine),
      st.key_format_identified = ln.key →
      addLineWithFmt false dbFmt st ln =
        .ok { st with records := st.records ++ [(ln.key, ln.format, ln.ts)] }
      ∧ ∀ rest : List InLine,
        add_from_stream_with_fmt false dbFmt (ln :: rest) st =
          add_from_stream_with_fmt false dbFmt rest
            { st with records := st.records ++ [(ln.key, ln.format, ln.ts)] } := by
  intro dbFmt st ln h
  have h1 : addLineWithFmt false dbFmt st ln =
      .ok { st with records := st.records ++ [(ln.key, ln.format, ln.ts)] } := by
    unfold addLineWithFmt
    rw [if_neg (fun hc => hc.2 h)]
  refine ⟨h1, fun rest => ?_⟩
  have hstep : add_from_stream_with_fmt false dbFmt (ln :: rest) st =
      match addLineWithFmt false dbFmt st ln with
      | .error e => .error e
      | .ok st' => add_from_stream_with_fmt false dbFmt rest st' := rfl
  rw [hstep, h1]

/-- Witness for C9: the database stores format "f64" for key "k", the
cache already holds "k", and a line with key "k" but format "u32" is still
accepted and recorded. -/
theorem c9_format_check_skipped_for_repeated_key_witness :
    addLineWithFmt false (fun k => if k == "k" then some "f64" else none)
      ⟨"k", [("k", "f64", 5)]⟩ ⟨"k", 6, "u32", "3"⟩ =
      .ok ⟨"k", [("k", "f64", 5), ("k", "u32", 6)]⟩ := by
  have h := (c9_format_check_skipped_for_repeated_key
    (fun k => if k == "k" then some "f64" else none)
    ⟨"k", [("k", "f64", 5)]⟩ ⟨"k", 6, "u32", "3"⟩ rfl).1
  rw [h]
  rfl

/-- C8: `print_record` writes the escaped key, the ISO-8601 rendering of
the big-endian timestamp prefix (date and time separated by the letter
`T`) and the decoded values, separated by tabs; `print_record_nanos`
writes the same line with the timestamp as decimal epoch nanoseconds; and
the ISO rendering is the `%FT%T` form, checked on concrete instants
(including one with `chrono`'s fractional suffix for sub-second values). -/
theorem c8_print_record_tab_layout :
    (∀ (decode : List Nat → String) (rec : OwnedRecord),
      print_record decode rec =
        escapeStr rec.key ++ "\t" ++ isoDatePart (readU64BE rec.value) ++ "T" ++
          isoTimePart (readU64BE rec.value) ++ "\t" ++ decode (rec.value.drop 8)
      ∧ print_record_nanos decode rec =
        escapeStr rec.key ++ "\t" ++ Nat.repr (readU64BE rec.value) ++ "\t" ++
          decode (rec.value.drop 8))
    ∧ isoOfNanos 0 = "1970-01-01T00:00:00"
    ∧ isoOfNanos 1000000000000000000 = "2001-09-09T01:46:40"
    ∧ isoOfNanos 1234567890123456789 = "2009-02-13T23:31:30.123456789" := by
  refine ⟨?_, by decide, by decide, by decide⟩
  intro decode rec
  constructor
  · unfold print_record isoOfNanos
    simp [String.append_assoc]
  · rfl

theorem lastOut_cons (q? : Option Nat) (t : Nat) (l : List Nat) :
    lastOut q? (t :: l) = lastOut (some t) l := by
  induction l generalizing t with
  | nil => rfl
  | cons x xs ih =>
    unfold lastOut
    rw [List.getLast?_cons_cons]
    rfl

theorem fillBufferAux_error_not_chain (R n : Nat) :
    ∀ (gens : List Nat) (first? last? : Option Nat) (buf : Nat) (e : String),
      fillBufferAux R n first? last? buf gens = .error e →
      ¬ List.Chain' (· < ·) (withLast last? gens) := by
  intro gens
  induction gens with
  | nil =>
    intro first? last? buf e h
    unfold fillBufferAux at h
    split at h <;> simp_all
  | cons t rest ih =>
    intro first? last? buf e h hchain
    unfold fillBufferAux at h
    split at h
    · cases last? with
      | some p =>
        dsimp only at h
        simp only [withLast] at hchain
        have hpt : p < t := (List.chain'_cons.mp hchain).1
        rw [if_neg (by omega)] at h
        exact ih _ (some t) _ e h (List.chain'_cons.mp hchain).2
      | none =>
        dsimp only at h
        simp only [withLast] at hchain
        exact ih _ (some t) _ e h hchain
    · simp_all

theorem fillBufferAux_ok_spec (R n : Nat) :
    ∀ (gens : List Nat) (first? last? : Option Nat) (buf : Nat)
      (f? l? : Option Nat) (len : Nat) (rest : List Nat) (done : Bool),
      fillBufferAux R n first? last? buf gens = .ok (f?, l?, len, rest, done) →
      ∃ m, rest = gens.drop m
        ∧ List.Chain' (· < ·) (withLast last? (gens.take m))
        ∧ l? = lastOut last? (gens.take m)
        ∧ f? = firstOut first? (gens.take m)
        ∧ len = buf + m * R
        ∧ (done = true → rest = [])
        ∧ (m = 0 → n ≤ buf ∨ gens = []) := by
  intro gens
  induction gens with
  | nil =>
    intro first? last? buf f? l? len rest done h
    unfold fillBufferAux at h
    split at h
    · simp only [Except.ok.injEq, Prod.mk.injEq] at h
      obtain ⟨h1, h2, h3, h4, h5⟩ := h
      refine ⟨0, by simp [← h4], ?_, by simp [← h2, lastOut], ?_, by omega, by simp [← h4], ?_⟩
      · cases last? <;> simp [withLast]
      · cases first? <;> simp_all [firstOut]
      · intro _
        right
        rfl
    · simp only [Except.ok.injEq, Prod.mk.injEq] at h
      obtain ⟨h1, h2, h3, h4, h5⟩ := h
      refine ⟨0, by simp [← h4], ?_, by simp [← h2, lastOut], ?_, by omega, by simp [← h4], ?_⟩
      · cases last? <;> simp [withLast]
      · cases first? <;> simp_all [firstOut]
      · intro _
        right
        rfl
  | cons t rest' ih =>
    intro first? last? buf f? l? len rest done h
    unfold fillBufferAux at h
    split at h
    · rename_i hlt
      cases last? with
      | some p =>
        dsimp only at h
        by_cases htp : t ≤ p
        · rw [if_pos htp] at h
          exact absurd h (by simp)
        · rw [if_neg htp] at h
          obtain ⟨m', hrest, hchain, hl, hf, hlen, hdone, _⟩ :=
            ih (some (first?.getD t)) (some t) (buf + R) f? l? len rest done h
          refine ⟨m' + 1, by simpa using hrest, ?_, ?_, ?_, by rw [hlen]; ring, hdone,
            by omega⟩
          · simp only [withLast, List.take_succ_cons]
            simp only [withLast] at hchain
            exact List.chain'_cons.mpr ⟨by omega, hchain⟩
          · rw [hl, List.take_succ_cons, lastOut_cons]
          · rw [hf, List.take_succ_cons]
            cases first? <;> rfl
      | none =>
        dsimp only at h
        obtain ⟨m', hrest, hchain, hl, hf, hlen, hdone, _⟩ :=
          ih (some (first?.getD t)) (some t) (buf + R) f? l? len rest done h
        refine ⟨m' + 1, by simpa using hrest, ?_, ?_, ?_, by rw [hlen]; ring, hdone,
          by omega⟩
        · simp only [withLast, List.take_succ_cons]
          simp only [withLast] at hchain
          exact hchain
        · rw [hl, List.take_succ_cons, lastOut_cons]
        · rw [hf, List.take_succ_cons]
          cases first? <;> rfl
    · rename_i hge
      simp only [Except.ok.injEq, Prod.mk.injEq] at h
      obtain ⟨h1, h2, h3, h4, h5⟩ := h
      refine ⟨0, by simp [← h4], ?_, by simp [← h2, lastOut], ?_, by omega, ?_, ?_⟩
      · cases last? <;> simp [withLast]
      · cases first? <;> simp_all [firstOut]
      · intro hd
        rw [← h5] at hd
        simp at hd
      · intro _
        left
        omega

theorem getLast?_withLast (p? : Option Nat) (l : List Nat) :
    (withLast p? l).getLast? = lastOut p? l := by
  cases p? with
  | none =>
    unfold withLast lastOut
    cases hl : l.getLast? <;> simp [hl]
  | some p =>
    unfold withLast lastOut
    cases l with
    | nil => rfl
    | cons x xs =>
      rw [List.getLast?_cons_cons]
      cases hg : (x :: xs).getLast? with
      | none => simp at hg
      | some g => simp [hg]

theorem fill_buffer_error_not_chain (R n : Nat) (p? : Option Nat)
    (gens : List Nat) (e : String)
    (h : fill_buffer R n p? gens = .error e) :
    ¬ List.Chain' (· < ·) (withLast p? gens) := by
  unfold fill_buffer at h
  cases haux : fillBufferAux R n none p? 0 gens with
  | error e' =>
    exact fillBufferAux_error_not_chain R n gens none p? 0 e' haux
  | ok tup =>
    rw [haux] at h
    obtain ⟨f?, l?, len, rest, done⟩ := tup
    cases f? <;> cases l? <;> simp at h

theorem fill_buffer_ok_spec (R n : Nat) (p? : Option Nat) (gens : List Nat)
    (range? : Option (Nat × Nat)) (len : Nat) (rest : List Nat) (done : Bool)
    (h : fill_buffer R n p? gens = .ok (range?, len, rest, done)) :
    ∃ m, rest = gens.drop m
      ∧ List.Chain' (· < ·) (withLast p? (gens.take m))
      ∧ (done = true → rest = [])
      ∧ ((range? = none ∧ rest = gens ∧ (0 < n → gens = []))
        ∨ (∃ fts lts, range? = some (fts, lts) ∧ 1 ≤ m
            ∧ (gens.take m).head? = some fts
            ∧ (gens.take m).getLast? = some lts)) := by
  unfold fill_buffer at h
  cases haux : fillBufferAux R n none p? 0 gens with
  | error e' => rw [haux] at h; exact absurd h (by simp)
  | ok tup =>
    rw [haux] at h
    obtain ⟨f?, l?, len', rest', done'⟩ := tup
    obtain ⟨m, hrest, hchain, hl, hf, hlen, hdone, hm0⟩ :=
      fillBufferAux_ok_spec R n gens none p? 0 f? l? len' rest' done' haux
    cases hfv : f? with
    | none =>
      rw [hfv] at h
      cases l? <;>
      · simp only [Except.ok.injEq, Prod.mk.injEq] at h
        obtain ⟨hr, hlen2, hrest2, hdone2⟩ := h
        subst hrest2 hdone2
        refine ⟨m, hrest, hchain, hdone, Or.inl ⟨hr.symm, ?_, ?_⟩⟩
        · rw [hfv] at hf
          unfold firstOut at hf
          have htake : (gens.take m).head? = none := hf.symm
          rw [List.head?_eq_none_iff] at htake
          rcases List.take_eq_nil_iff.mp htake with h0 | h0
          · subst h0; simp [hrest]
          · subst h0; simp [hrest]
        · intro hn
          rw [hfv] at hf
          unfold firstOut at hf
          have htake : (gens.take m).head? = none := hf.symm
          rw [List.head?_eq_none_iff] at htake
          rcases List.take_eq_nil_iff.mp htake with h0 | h0
          · subst h0
            rcases hm0 rfl with hc | hc
            · omega
            · exact hc
          · exact h0
    | some fv =>
      rw [hfv] at h
      rw [hfv] at hf
      unfold firstOut at hf
      have hhead : (gens.take m).head? = some fv := hf.symm
      have htake_ne : gens.take m ≠ [] := by
        intro hc
        rw [hc] at hhead
        simp at hhead
      have hgl : ∃ g, (gens.take m).getLast? = some g := by
        cases hg : (gens.take m).getLast? with
        | none => exact absurd (List.getLast?_eq_none_iff.mp hg) htake_ne
        | some g => exact ⟨g, rfl⟩
      obtain ⟨g, hgv⟩ := hgl
      have hlv : l? = some g := by
        rw [hl]; unfold lastOut; rw [hgv]
      rw [hlv] at h
      simp only [Except.ok.injEq, Prod.mk.injEq] at h
      obtain ⟨hr, hlen2, hrest2, hdone2⟩ := h
      subst hrest2 hdone2
      refine ⟨m, hrest, hchain, hdone, Or.inr ⟨fv, g, hr.symm, ?_, hhead, hgv⟩⟩
      cases m with
      | zero => simp at htake_ne
      | succ k => omega

theorem chain_withLast_split (p? : Option Nat) (gens : List Nat) (m : Nat) :
    List.Chain' (· < ·) (withLast p? gens) ↔
      List.Chain' (· < ·) (withLast p? (gens.take m))
        ∧ List.Chain' (· < ·) (withLast (lastOut p? (gens.take m)) (gens.drop m)) := by
  have hsplit : withLast p? gens = withLast p? (gens.take m) ++ gens.drop m := by
    cases p? <;> simp [withLast]
  rw [hsplit, List.chain'_append]
  constructor
  · rintro ⟨h1, h2, h3⟩
    refine ⟨h1, ?_⟩
    cases hq : lastOut p? (gens.take m) with
    | none => simpa [withLast] using h2
    | some q =>
      simp only [withLast]
      refine List.chain'_cons'.mpr ⟨?_, h2⟩
      intro y hy
      exact h3 q (by simp [getLast?_withLast, hq]) y hy
  · rintro ⟨h1, h2⟩
    refine ⟨h1, ?_, ?_⟩
    · cases hq : lastOut p? (gens.take m) with
      | none => simpa [withLast, hq] using h2
      | some q =>
        rw [hq] at h2
        simp only [withLast] at h2
        exact (List.chain'_cons'.mp h2).2
    · intro x hx y hy
      rw [getLast?_withLast] at hx
      cases hq : lastOut p? (gens.take m) with
      | none => rw [hq] at hx; exact absurd hx (by simp)
      | some q =>
        rw [hq] at hx
        have hxq : q = x := by simpa using hx
        subst hxq
        rw [hq] at h2
        simp only [withLast] at h2
        exact (List.chain'_cons'.mp h2).1 y hy

theorem chain_head_le_getLast :
    ∀ (l : List Nat), List.Chain' (· < ·) l →
      ∀ f g, l.head? = some f → l.getLast? = some g → f ≤ g := by
  intro l
  induction l with
  | nil => intro _ f g hf _; simp at hf
  | cons x xs ih =>
    intro hchain f g hf hg
    cases xs with
    | nil =>
      simp at hf hg
      omega
    | cons y ys =>
      have hf' : x = f := by simpa using hf
      rw [List.getLast?_cons_cons] at hg
      have hxy : x < y := (List.chain'_cons.mp hchain).1
      have := ih (List.chain'_cons.mp hchain).2 y g (by simp) hg
      omega

theorem chain_cons_lt_getLast (p : Nat) :
    ∀ (l : List Nat), List.Chain' (· < ·) (p :: l) →
      ∀ g, l.getLast? = some g → p < g := by
  intro l hchain g hg
  cases l with
  | nil => simp at hg
  | cons y ys =>
    have hpy : p < y := (List.chain'_cons.mp hchain).1
    have := chain_head_le_getLast (y :: ys) (List.chain'_cons.mp hchain).2 y g (by simp) hg
    omega

theorem argmax_foldl_sorted :
    ∀ (l : List Block),
      List.Chain' (fun a b => a.first_timestamp < b.first_timestamp) l →
      l.foldl
        (fun acc b =>
          match acc with
          | none => some b
          | some a => if a.first_timestamp < b.first_timestamp then some b else some a)
        none = l.getLast? := by
  intro l
  induction l using List.reverseRecOn with
  | nil => intro _; rfl
  | append_singleton l b ih =>
    intro hchain
    obtain ⟨hc1, _, hc3⟩ := List.chain'_append.mp hchain
    rw [List.foldl_append, ih hc1]
    cases hl : l.getLast? with
    | none =>
      have : l = [] := List.getLast?_eq_none_iff.mp hl
      subst this
      simp
    | some a =>
      have hab : a.first_timestamp < b.first_timestamp :=
        hc3 a (by simp [hl]) b (by simp)
      simp [hab]

theorem last_block_sorted (st : MetaState) (sid : Nat)
    (hchain : List.Chain' (fun a b => a.first_timestamp < b.first_timestamp)
      (sidBlocks st sid)) :
    last_block_for_series st sid = (sidBlocks st sid).getLast? :=
  argmax_foldl_sorted (sidBlocks st sid) hchain

theorem sidBlocks_create_new_block (st : MetaState) (sid fts lts len cap : Nat) :
    sidBlocks (create_new_block st sid fts lts len cap) sid
      = sidBlocks st sid ++
        [{ series_id := sid, generation := st.generation,
           first_timestamp := fts, last_timestamp := lts,
           offset := st.next_offset, capacity := max cap len, size := len }] := by
  unfold sidBlocks create_new_block
  simp [List.filter_append]

theorem sidBlocks_resize (st : MetaState) (sid first newLast newSize : Nat) :
    sidBlocks (resize_existing_block st sid first newLast newSize) sid
      = (sidBlocks st sid).map (fun b =>
          if b.first_timestamp == first then
            { b with size := newSize, last_timestamp := newLast,
                     generation := st.generation }
          else b) := by
  unfold sidBlocks resize_existing_block
  simp only
  induction st.series_blocks with
  | nil => rfl
  | cons b bs ih =>
    by_cases hsid : b.series_id == sid
    · by_cases hfst : b.first_timestamp == first
      · simp only [List.map_cons, List.filter_cons, hsid, hfst, Bool.and_self,
          if_pos]
        simp only [hsid, hfst] at *
        simp_all
      · simp only [List.map_cons, List.filter_cons, hsid, hfst, Bool.and_false]
        simp_all
    · by_cases hfst : b.first_timestamp == first
      · simp only [List.map_cons, List.filter_cons, hsid, hfst, Bool.false_and]
        simp_all
      · simp only [List.map_cons, List.filter_cons, hsid, hfst, Bool.false_and]
        simp_all

theorem map_resize_getLast (upd : Block → Block) (target : Nat) :
    ∀ (l : List Block) (b : Block),
      (∀ a ∈ l, a.first_timestamp < target) →
      b.first_timestamp = target →
      ((l ++ [b]).map (fun a => if a.first_timestamp == target then upd a else a))
        = l ++ [upd b] := by
  intro l b hl hb
  rw [List.map_append]
  congr 1
  · induction l with
    | nil => rfl
    | cons x xs ih =>
      have hx : x.first_timestamp ≠ target := by
        have := hl x (by simp)
        omega
      simp only [List.map_cons]
      rw [if_neg (by simp [hx])]
      rw [ih (fun a ha => hl a (by simp [ha]))]
  · simp [hb]

theorem exists_append_of_getLast? :
    ∀ (l : List Block) (b : Block), l.getLast? = some b → ∃ l₀, l = l₀ ++ [b] := by
  intro l
  induction l with
  | nil => intro b h; simp at h
  | cons x xs ih =>
    intro b h
    cases xs with
    | nil =>
      have : x = b := by simpa using h
      exact ⟨[], by simp [this]⟩
    | cons y ys =>
      rw [List.getLast?_cons_cons] at h
      obtain ⟨l₀, hl₀⟩ := ih b h
      exact ⟨x :: l₀, by simp [hl₀]⟩

theorem blocks_sorted_all_lt (l₀ : List Block) (b : Block)
    (h : List.Chain' (fun a c => a.first_timestamp < c.first_timestamp) (l₀ ++ [b])) :
    ∀ a ∈ l₀, a.first_timestamp < b.first_timestamp := by
  intro a ha
  have h1 : List.Chain' (· < ·) ((l₀ ++ [b]).map (fun x => x.first_timestamp)) :=
    (List.chain'_map _).mpr h
  have h2 := List.chain'_iff_pairwise.mp h1
  rw [List.map_append, List.pairwise_append] at h2
  exact h2.2.2 a.first_timestamp (List.mem_map_of_mem _ ha) b.first_timestamp (by simp)

theorem blocks_chain_of_map_firsts_eq (l₁ l₂ : List Block)
    (hmap : l₁.map (fun x => x.first_timestamp) = l₂.map (fun x => x.first_timestamp))
    (h : List.Chain' (fun a c => a.first_timestamp < c.first_timestamp) l₁) :
    List.Chain' (fun a c => a.first_timestamp < c.first_timestamp) l₂ := by
  have h1 := (List.chain'_map (fun x : Block => x.first_timestamp)).mpr h
  rw [hmap] at h1
  exact (List.chain'_map _).mp h1

theorem insertLoop_continue (R P sid f : Nat) (st' : MetaState)
    (gens rest : List Nat) (m : Nat) (p? : Option Nat) (lts : Nat) (done : Bool)
    (ih : ∀ (st : MetaState) (gs : List Nat), gs.length < f →
      BlocksWF (sidBlocks st sid) →
      ((∃ st'', insertLoopF R P sid f st gs = .ok st'') ↔
        List.Chain' (· < ·)
          (withLast ((last_block_for_series st sid).map (fun b => b.last_timestamp)) gs)))
    (hwf' : BlocksWF (sidBlocks st' sid))
    (hlb' : (last_block_for_series st' sid).map (fun b => b.last_timestamp) = some lts)
    (hrest : rest = gens.drop m)
    (hm : 1 ≤ m)
    (hne : gens ≠ [])
    (hchainT : List.Chain' (· < ·) (withLast p? (gens.take m)))
    (hgl : (gens.take m).getLast? = some lts)
    (hdone : done = true → rest = [])
    (hlen : gens.length < f + 1) :
    ((∃ st'', (if done then Except.ok st' else insertLoopF R P sid f st' rest)
        = Except.ok (ε := String) st'') ↔
      List.Chain' (· < ·) (withLast p? gens)) := by
  have hlast : lastOut p? (gens.take m) = some lts := by
    unfold lastOut
    rw [hgl]
  rw [chain_withLast_split p? gens m, hlast]
  cases done with
  | true =>
    have hrest0 : rest = [] := hdone rfl
    rw [if_pos rfl]
    have hdrop : gens.drop m = [] := by rw [← hrest, hrest0]
    rw [hdrop]
    refine iff_of_true ⟨st', rfl⟩ ⟨hchainT, ?_⟩
    simp [withLast]
  | false =>
    rw [if_neg (by simp)]
    have hlen' : rest.length < f := by
      rw [hrest, List.length_drop]
      have h1 : 1 ≤ gens.length := List.length_pos.mpr hne
      omega
    have hih := ih st' rest hlen' hwf'
    rw [hlb'] at hih
    rw [hih, ← hrest]
    constructor
    · intro h
      exact ⟨hchainT, h⟩
    · intro h
      exact h.2

theorem insertLoopF_ok_iff (R P sid : Nat) (hP : 0 < P) :
    ∀ (fuel : Nat) (st : MetaState) (gens : List Nat),
      gens.length < fuel →
      BlocksWF (sidBlocks st sid) →
      ((∃ st', insertLoopF R P sid fuel st gens = .ok st') ↔
        List.Chain' (· < ·)
          (withLast ((last_block_for_series st sid).map (fun b => b.last_timestamp))
            gens)) := by
  intro fuel
  induction fuel with
  | zero =>
    intro st gens h _
    omega
  | succ f ih =>
    intro st gens hlen hwf
    obtain ⟨hsort, hfl⟩ := hwf
    have hlbg : last_block_for_series st sid = (sidBlocks st sid).getLast? :=
      last_block_sorted st sid hsort
    unfold insertLoopF
    cases hlbv : last_block_for_series st sid with
    | none =>
      have hempty : sidBlocks st sid = [] := by
        rw [hlbv] at hlbg
        exact List.getLast?_eq_none_iff.mp hlbg.symm
      dsimp only
      cases hfb : fill_buffer R P none gens with
      | error e =>
        dsimp only
        exact iff_of_false (by rintro ⟨st', hc⟩; simp at hc)
          (by simpa using fill_buffer_error_not_chain R P none gens e hfb)
      | ok tup =>
        obtain ⟨range?, len, rest, done⟩ := tup
        obtain ⟨m, hrest, hchainT, hdone, hcase⟩ :=
          fill_buffer_ok_spec R P none gens range? len rest done hfb
        cases range? with
        | none =>
          dsimp only
          rcases hcase with ⟨_, _, himp⟩ | ⟨fts, lts, hcontra, _⟩
          · have hgens : gens = [] := himp hP
            subst hgens
            exact iff_of_true ⟨st, rfl⟩ (by simp [withLast])
          · simp at hcontra
        | some fl =>
          obtain ⟨fts, lts⟩ := fl
          dsimp only
          rcases hcase with ⟨hcontra, _, _⟩ | ⟨fts', lts', heq, hm, hhead, hgl⟩
          · simp at hcontra
          · obtain ⟨hfe, hle⟩ : fts = fts' ∧ lts = lts' := by simpa using heq
            rw [← hfe] at hhead
            rw [← hle] at hgl
            have hne : gens ≠ [] := by
              intro hgnil
              subst hgnil
              simp at hhead
            have hchainTake : List.Chain' (· < ·) (gens.take m) := by
              simpa [withLast] using hchainT
            have hts : fts ≤ lts :=
              chain_head_le_getLast (gens.take m) hchainTake fts lts hhead hgl
            have hsid' : sidBlocks (create_new_block st sid fts lts len P) sid
                = [{ series_id := sid, generation := st.generation,
                     first_timestamp := fts, last_timestamp := lts,
                     offset := st.next_offset, capacity := max P len, size := len }] := by
              rw [sidBlocks_create_new_block, hempty]
              rfl
            have hwf' : BlocksWF (sidBlocks (create_new_block st sid fts lts len P) sid) := by
              rw [hsid']
              refine ⟨List.chain'_singleton _, ?_⟩
              intro a ha
              simp only [List.mem_singleton] at ha
              subst ha
              exact hts
            have hlb' : (last_block_for_series (create_new_block st sid fts lts len P) sid).map
                (fun bb => bb.last_timestamp) = some lts := by
              rw [last_block_sorted _ sid hwf'.1, hsid']
              rfl
            simpa using insertLoop_continue R P sid f _ gens rest m none lts done
              (fun s gs hl hw => ih s gs hl hw) hwf' hlb' hrest hm hne
              (by simpa [withLast] using hchainTake) hgl hdone hlen
    | some b =>
      have hgetl : (sidBlocks st sid).getLast? = some b := by
        rw [hlbv] at hlbg
        exact hlbg.symm
      obtain ⟨l₀, hl₀⟩ := exists_append_of_getLast? _ b hgetl
      have hmem_b : b ∈ sidBlocks st sid := by
        rw [hl₀]
        simp
      have hb_fl : b.first_timestamp ≤ b.last_timestamp := hfl b hmem_b
      dsimp only
      by_cases hfits : sub64 b.capacity b.size % P = 0
      · rw [if_pos hfits]
        cases hfb : fill_buffer R P (some b.last_timestamp) gens with
        | error e =>
          dsimp only
          exact iff_of_false (by rintro ⟨st', hc⟩; simp at hc)
            (by simpa using
              fill_buffer_error_not_chain R P (some b.last_timestamp) gens e hfb)
        | ok tup =>
          obtain ⟨range?, len, rest, done⟩ := tup
          obtain ⟨m, hrest, hchainT, hdone, hcase⟩ :=
            fill_buffer_ok_spec R P (some b.last_timestamp) gens range? len rest done hfb
          cases range? with
          | none =>
            dsimp only
            rcases hcase with ⟨_, _, himp⟩ | ⟨fts, lts, hcontra, _⟩
            · have hgens : gens = [] := himp hP
              subst hgens
              exact iff_of_true ⟨st, rfl⟩ (by simp [withLast])
            · simp at hcontra
          | some fl =>
            obtain ⟨fts, lts⟩ := fl
            dsimp only
            rcases hcase with ⟨hcontra, _, _⟩ | ⟨fts', lts', heq, hm, hhead, hgl⟩
            · simp at hcontra
            · obtain ⟨hfe, hle⟩ : fts = fts' ∧ lts = lts' := by simpa using heq
              rw [← hfe] at hhead
              rw [← hle] at hgl
              have hne : gens ≠ [] := by
                intro hgnil
                subst hgnil
                simp at hhead
              have hchainW : List.Chain' (· < ·) (b.last_timestamp :: gens.take m) := by
                simpa [withLast] using hchainT
              have hchainTake : List.Chain' (· < ·) (gens.take m) :=
                (List.chain'_cons'.mp hchainW).2
              have hts : fts ≤ lts :=
                chain_head_le_getLast (gens.take m) hchainTake fts lts hhead hgl
              have hlast_lt : b.last_timestamp < fts :=
                (List.chain'_cons'.mp hchainW).1 fts hhead
              have hsid' : sidBlocks (create_new_block st sid fts lts len P) sid
                  = sidBlocks st sid ++
                    [{ series_id := sid, generation := st.generation,
                       first_timestamp := fts, last_timestamp := lts,
                       offset := st.next_offset, capacity := max P len, size := len }] :=
                sidBlocks_create_new_block st sid fts lts len P
              have hwf' : BlocksWF (sidBlocks (create_new_block st sid fts lts len P) sid) := by
                rw [hsid']
                constructor
                · refine List.chain'_append.mpr ⟨hsort, List.chain'_singleton _, ?_⟩
                  intro x hx y hy
                  rw [hgetl] at hx
                  obtain rfl : b = x := by simpa using hx
                  simp only [List.head?_cons, Option.mem_def, Option.some.injEq] at hy
                  subst hy
                  show b.first_timestamp < fts
                  omega
                · intro a ha
                  rw [List.mem_append] at ha
                  rcases ha with ha | ha
                  · exact hfl a ha
                  · simp only [List.mem_singleton] at ha
                    subst ha
                    exact hts
              have hlb' : (last_block_for_series (create_new_block st sid fts lts len P) sid).map
                  (fun bb => bb.last_timestamp) = some lts := by
                rw [last_block_sorted _ sid hwf'.1, hsid', List.getLast?_concat]
                rfl
              simpa using insertLoop_continue R P sid f _ gens rest m
                (some b.last_timestamp) lts done
                (fun s gs hl hw => ih s gs hl hw) hwf' hlb' hrest hm hne
                (by simpa [withLast] using hchainW) hgl hdone hlen
      · rw [if_neg hfits]
        cases hfb : fill_buffer R (sub64 b.capacity b.size % P) (some b.last_timestamp) gens with
        | error e =>
          dsimp only
          exact iff_of_false (by rintro ⟨st', hc⟩; simp at hc)
            (by simpa using fill_buffer_error_not_chain R _ (some b.last_timestamp) gens e hfb)
        | ok tup =>
          obtain ⟨range?, len, rest, done⟩ := tup
          obtain ⟨m, hrest, hchainT, hdone, hcase⟩ :=
            fill_buffer_ok_spec R _ (some b.last_timestamp) gens range? len rest done hfb
          cases range? with
          | none =>
            dsimp only
            rcases hcase with ⟨_, _, himp⟩ | ⟨fts, lts, hcontra, _⟩
            · have hgens : gens = [] := himp (Nat.pos_of_ne_zero hfits)
              subst hgens
              exact iff_of_true ⟨st, rfl⟩ (by simp [withLast])
            · simp at hcontra
          | some fl =>
            obtain ⟨fts, lts⟩ := fl
            dsimp only
            rcases hcase with ⟨hcontra, _, _⟩ | ⟨fts', lts', heq, hm, hhead, hgl⟩
            · simp at hcontra
            · obtain ⟨hfe, hle⟩ : fts = fts' ∧ lts = lts' := by simpa using heq
              rw [← hfe] at hhead
              rw [← hle] at hgl
              have hne : gens ≠ [] := by
                intro hgnil
                subst hgnil
                simp at hhead
              have hchainW : List.Chain' (· < ·) (b.last_timestamp :: gens.take m) := by
                simpa [withLast] using hchainT
              have hlast_lt_lts : b.last_timestamp < lts :=
                chain_cons_lt_getLast b.last_timestamp (gens.take m) hchainW lts hgl
              have hsort₀ : List.Chain'
                  (fun a c => a.first_timestamp < c.first_timestamp) (l₀ ++ [b]) := by
                rw [← hl₀]
                exact hsort
              have hsid' : sidBlocks
                  (resize_existing_block st sid b.first_timestamp lts (b.size + len)) sid
                  = l₀ ++ [{ b with size := b.size + len, last_timestamp := lts, generation := st.generation }] := by
                rw [sidBlocks_resize, hl₀]
                exact map_resize_getLast
                  (fun a => { a with size := b.size + len, last_timestamp := lts, generation := st.generation })
                  b.first_timestamp l₀ b (blocks_sorted_all_lt l₀ b hsort₀) rfl
              have hwf' : BlocksWF (sidBlocks
                  (resize_existing_block st sid b.first_timestamp lts (b.size + len)) sid) := by
                rw [hsid']
                constructor
                · refine blocks_chain_of_map_firsts_eq (l₀ ++ [b]) _ ?_ hsort₀
                  simp
                · intro a ha
                  rw [List.mem_append] at ha
                  rcases ha with ha | ha
                  · refine hfl a ?_
                    rw [hl₀, List.mem_append]
                    exact Or.inl ha
                  · simp only [List.mem_singleton] at ha
                    subst ha
                    show b.first_timestamp ≤ lts
                    omega
              have hlb' : (last_block_for_series
                  (resize_existing_block st sid b.first_timestamp lts (b.size + len)) sid).map
                  (fun bb => bb.last_timestamp) = some lts := by
                rw [last_block_sorted _ sid hwf'.1, hsid', List.getLast?_concat]
                rfl
              simpa using insertLoop_continue R P sid f _ gens rest m
                (some b.last_timestamp) lts done
                (fun s gs hl hw => ih s gs hl hw) hwf' hlb' hrest hm hne
                (by simpa [withLast] using hchainW) hgl hdone hlen

/-- C3: `insert_into_series` fails (with the order error, the only failure
its loop produces) exactly when the produced timestamp sequence, prefixed
by the stored `last_timestamp` of the series' newest block, is not strictly
increasing — equal timestamps are rejected, never coalesced; and when all
produced timestamps are strictly increasing and above the stored last
timestamp, no error occurs.  The series' block list is assumed well-formed
(primary-key order, nonempty ranges) and the preferred block size positive,
as guaranteed by the schema and the row-format contract. -/
theorem c3_insert_order_error_iff (R P sid : Nat) (st : MetaState)
    (gens : List Nat) (hP : 0 < P) (hwf : BlocksWF (sidBlocks st sid)) :
    (insert_into_series R P st sid gens).2.isSome = true ↔
      ¬ List.Chain' (· < ·)
        (withLast ((last_block_for_series st sid).map (fun b => b.last_timestamp))
          gens) := by
  have h := insertLoopF_ok_iff R P sid hP (gens.length + 1) st gens (by omega) hwf
  unfold insert_into_series
  cases hres : insertLoopF R P sid (gens.length + 1) st gens with
  | ok st' =>
    have hchain := h.mp ⟨st', hres⟩
    simp [hchain]
  | error e =>
    have hnc : ¬ List.Chain' (· < ·)
        (withLast ((last_block_for_series st sid).map (fun b => b.last_timestamp))
          gens) := by
      intro hc
      obtain ⟨st', hok⟩ := h.mpr hc
      rw [hres] at hok
      simp at hok
    simp [hnc]

/-- Witness for C3: a fresh series accepts the increasing timestamps 5, 7
without an order error, while repeating timestamp 9 after a stored last
timestamp of 9 fails with one. -/
theorem c3_insert_order_error_iff_witness :
    ((insert_into_series 12 4096 mdEmpty 1 [5, 7]).2.isSome = true ↔
      ¬ List.Chain' (· < ·)
        (withLast ((last_block_for_series mdEmpty 1).map (fun b => b.last_timestamp))
          [5, 7]))
    ∧ ((insert_into_series 12 4096
          (insert_into_series 12 4096 mdEmpty 1 [9]).1 1 [9]).2.isSome = true ↔
      ¬ List.Chain' (· < ·)
        (withLast ((last_block_for_series
            (insert_into_series 12 4096 mdEmpty 1 [9]).1 1).map
          (fun b => b.last_timestamp)) [9])) :=
  ⟨c3_insert_order_error_iff 12 4096 1 mdEmpty [5, 7] (by decide)
     (by
       have hb : sidBlocks mdEmpty 1 = [] := by decide
       rw [hb]
       exact ⟨List.chain'_nil, by simp⟩),
   c3_insert_order_error_iff 12 4096 1 (insert_into_series 12 4096 mdEmpty 1 [9]).1
     [9] (by decide)
     (by
       have hb : sidBlocks (insert_into_series 12 4096 mdEmpty 1 [9]).1 1
           = [{ series_id := 1, generation := 1, first_timestamp := 9,
                last_timestamp := 9, offset := 0, capacity := 4096, size := 12 }] := by
         decide
       rw [hb]
       refine ⟨List.chain'_singleton _, ?_⟩
       intro b hb2
       simp only [List.mem_singleton] at hb2
       subst hb2
       decide)⟩

theorem chain_mem_bounds :
    ∀ (l : List Nat), List.Chain' (· < ·) l →
      ∀ f g, l.head? = some f → l.getLast? = some g →
        ∀ x ∈ l, f ≤ x ∧ x ≤ g := by
  intro l
  induction l with
  | nil => intro _ f g hf _ x hx; simp at hx
  | cons a as ih =>
    intro hchain f g hf hg x hx
    have hfa : a = f := by simpa using hf
    subst hfa
    cases as with
    | nil =>
      simp only [List.mem_singleton] at hx
      have hg' : a = g := by simpa using hg
      subst hx
      omega
    | cons b bs =>
      rw [List.getLast?_cons_cons] at hg
      have hab : a < b := (List.chain'_cons.mp hchain).1
      have hrec := ih (List.chain'_cons.mp hchain).2 b g (by simp) hg
      rcases List.mem_cons.mp hx with rfl | hx'
      · refine ⟨le_refl _, ?_⟩
        have := hrec b (by simp)
        omega
      · have := hrec x hx'
        omega

theorem scanChunks_eq_filter (t0 t1 : Nat) :
    ∀ (cs : List (List Nat)),
      List.Chain' (· < ·) (cs.map readU64BE) →
      (scanChunks t0 t1 cs).1 =
        (cs.map (fun s => (readU64BE s, s.drop 8))).filter
          (fun r => decide (t0 ≤ r.1) && decide (r.1 ≤ t1)) := by
  intro cs
  induction cs with
  | nil => intro _; rfl
  | cons s cs' ih =>
    intro hchain
    rw [List.map_cons] at hchain
    have hpw := List.chain'_iff_pairwise.mp hchain
    have hlater : ∀ u ∈ cs'.map readU64BE, readU64BE s < u :=
      fun u hu => List.rel_of_pairwise_cons hpw hu
    have hchain' : List.Chain' (· < ·) (cs'.map readU64BE) :=
      List.chain'_iff_pairwise.mpr (List.Pairwise.of_cons hpw)
    unfold scanChunks
    by_cases h0 : t0 ≤ readU64BE s
    · rw [if_pos h0]
      by_cases h1 : t1 < readU64BE s
      · rw [if_pos h1]
        simp only [List.map_cons, List.filter_cons]
        rw [if_neg (by simp; omega)]
        have hnil : (cs'.map (fun s => (readU64BE s, s.drop 8))).filter
            (fun r => decide (t0 ≤ r.1) && decide (r.1 ≤ t1)) = [] := by
          rw [List.filter_eq_nil_iff]
          intro r hr
          rw [List.mem_map] at hr
          obtain ⟨s', hs', rfl⟩ := hr
          have := hlater (readU64BE s') (List.mem_map_of_mem _ hs')
          simp only [Bool.and_eq_true, decide_eq_true_eq]
          omega
        rw [hnil]
      · rw [if_neg h1]
        simp only [List.map_cons, List.filter_cons]
        rw [if_pos (by simp; omega)]
        have := ih hchain'
        cases hscan : scanChunks t0 t1 cs' with
        | mk emitted d =>
          rw [hscan] at this
          simp only at this ⊢
          rw [this]
    · rw [if_neg h0]
      simp only [List.map_cons, List.filter_cons]
      rw [if_neg (by simp; omega)]
      exact ih hchain'

theorem scanChunks_done_exists (t0 t1 : Nat) :
    ∀ (cs : List (List Nat)),
      (scanChunks t0 t1 cs).2 = true →
      ∃ s ∈ cs, t0 ≤ readU64BE s ∧ t1 < readU64BE s := by
  intro cs
  induction cs with
  | nil => intro h; simp [scanChunks] at h
  | cons s cs' ih =>
    intro h
    unfold scanChunks at h
    by_cases h0 : t0 ≤ readU64BE s
    · rw [if_pos h0] at h
      by_cases h1 : t1 < readU64BE s
      · exact ⟨s, by simp, h0, h1⟩
      · rw [if_neg h1] at h
        cases hscan : scanChunks t0 t1 cs' with
        | mk emitted d =>
          rw [hscan] at h
          simp only at h
          obtain ⟨s', hs', hp⟩ := ih (by rw [hscan]; exact h)
          exact ⟨s', by simp [hs'], hp⟩
    · rw [if_neg h0] at h
      obtain ⟨s', hs', hp⟩ := ih h
      exact ⟨s', by simp [hs'], hp⟩

theorem mem_blockRows_ts (R : Nat) (file : Nat → Nat) (b : Block)
    (r : Nat × List Nat) (hr : r ∈ blockRows R file b) :
    r.1 ∈ blockTs R file b := by
  unfold blockRows at hr
  unfold blockTs
  rw [List.mem_map] at hr
  obtain ⟨s, hs, rfl⟩ := hr
  exact List.mem_map_of_mem _ hs

theorem readBlocksLoop_eq_filter (t0 t1 R : Nat) (file : Nat → Nat) :
    ∀ (bs : List Block),
      (∀ b ∈ bs, BlockContentWF R file b) →
      List.Pairwise (fun a c => a.last_timestamp < c.first_timestamp) bs →
      readBlocksLoop t0 t1 R file bs =
        ((bs.map (blockRows R file)).flatten).filter
          (fun r => decide (t0 ≤ r.1) && decide (r.1 ≤ t1)) := by
  intro bs
  induction bs with
  | nil => intro _ _; rfl
  | cons b bs' ih =>
    intro hcw hpw
    obtain ⟨_, _, hch, hhd, hgl⟩ := hcw b (by simp)
    unfold readBlocksLoop
    have hscan := scanChunks_eq_filter t0 t1 (chunksList R (blockBytes file b)) hch
    cases hsc : scanChunks t0 t1 (chunksList R (blockBytes file b)) with
    | mk emitted d =>
      rw [hsc] at hscan
      simp only at hscan ⊢
      cases d with
      | false =>
        rw [if_neg (by simp)]
        rw [List.map_cons, List.flatten_cons, List.filter_append]
        rw [ih (fun c hc => hcw c (by simp [hc])) (List.Pairwise.of_cons hpw)]
        rw [hscan]
        rfl
      | true =>
        rw [if_pos rfl]
        rw [List.map_cons, List.flatten_cons, List.filter_append]
        obtain ⟨s, hs, hts0, hts1⟩ := scanChunks_done_exists t0 t1 _ (by rw [hsc])
        have hts_mem : readU64BE s ∈ blockTs R file b := List.mem_map_of_mem _ hs
        have hts_le : readU64BE s ≤ b.last_timestamp :=
          (chain_mem_bounds (blockTs R file b) hch b.first_timestamp b.last_timestamp
            hhd hgl (readU64BE s) hts_mem).2
        have hrest_nil : ((bs'.map (blockRows R file)).flatten).filter
            (fun r => decide (t0 ≤ r.1) && decide (r.1 ≤ t1)) = [] := by
          rw [List.filter_eq_nil_iff]
          intro r hr
          rw [List.mem_flatten] at hr
          obtain ⟨rows, hrows, hrmem⟩ := hr
          rw [List.mem_map] at hrows
          obtain ⟨c, hc, rfl⟩ := hrows
          obtain ⟨_, _, hchc, hhdc, hglc⟩ := hcw c (by simp [hc])
          have hge : c.first_timestamp ≤ r.1 :=
            (chain_mem_bounds (blockTs R file c) hchc c.first_timestamp
              c.last_timestamp hhdc hglc r.1 (mem_blockRows_ts R file c r hrmem)).1
          have hbc : b.last_timestamp < c.first_timestamp :=
            List.rel_of_pairwise_cons hpw hc
          simp only [Bool.and_eq_true, decide_eq_true_eq]
          omega
        rw [hrest_nil, hscan, List.append_nil]
        rfl

theorem to_sqlite_le_iff (x y : Nat)
    (hx : x < 18446744073709551616) (hy : y < 18446744073709551616) :
    (Timestamp.to_sqlite x ≤ Timestamp.to_sqlite y) ↔ x ≤ y := by
  rw [to_sqlite_eq x (by unfold TWO64; exact_mod_cast hx),
    to_sqlite_eq y (by unfold TWO64; exact_mod_cast hy)]
  unfold TWO63
  omega

theorem filter_and_comm (p q : Block → Bool) :
    ∀ l : List Block, l.filter (fun b => p b && q b) = (l.filter p).filter q := by
  intro l
  induction l with
  | nil => rfl
  | cons x xs ih =>
    cases hp : p x <;> cases hq : q x <;>
      simp [List.filter_cons, hp, hq, ih]

theorem blocks_for_range_eq (st : MetaState) (sid t0 t1 : Nat) :
    blocks_for_range st sid t0 t1 = (sidBlocks st sid).filter
      (fun b => decide (Timestamp.to_sqlite b.first_timestamp ≤ Timestamp.to_sqlite t1)
        && decide (Timestamp.to_sqlite t0 ≤ Timestamp.to_sqlite b.last_timestamp)) := by
  unfold blocks_for_range sidBlocks
  rw [← filter_and_comm]
  exact List.filter_congr (fun b _ => by rw [Bool.and_assoc])

theorem unselected_no_rows (R : Nat) (file : Nat → Nat) (t0 t1 : Nat) (b : Block)
    (hcw : BlockContentWF R file b)
    (ht0 : t0 < 18446744073709551616) (ht1 : t1 < 18446744073709551616)
    (hns : (decide (Timestamp.to_sqlite b.first_timestamp ≤ Timestamp.to_sqlite t1)
        && decide (Timestamp.to_sqlite t0 ≤ Timestamp.to_sqlite b.last_timestamp)) = false) :
    (blockRows R file b).filter
      (fun r => decide (t0 ≤ r.1) && decide (r.1 ≤ t1)) = [] := by
  obtain ⟨hb1, hb2, hch, hhd, hgl⟩ := hcw
  rw [List.filter_eq_nil_iff]
  intro r hr
  have hbnd := chain_mem_bounds (blockTs R file b) hch b.first_timestamp
    b.last_timestamp hhd hgl r.1 (mem_blockRows_ts R file b r hr)
  rw [Bool.and_eq_false_iff, decide_eq_false_iff_not, decide_eq_false_iff_not,
    to_sqlite_le_iff b.first_timestamp t1 hb1 ht1,
    to_sqlite_le_iff t0 b.last_timestamp ht0 hb2] at hns
  simp only [Bool.and_eq_true, decide_eq_true_eq]
  omega

theorem flatten_filter_selected (R : Nat) (file : Nat → Nat) (t0 t1 : Nat)
    (sel : Block → Bool) :
    ∀ (bs : List Block),
      (∀ b ∈ bs, sel b = false →
        (blockRows R file b).filter
          (fun r => decide (t0 ≤ r.1) && decide (r.1 ≤ t1)) = []) →
      (((bs.filter sel).map (blockRows R file)).flatten).filter
          (fun r => decide (t0 ≤ r.1) && decide (r.1 ≤ t1))
        = ((bs.map (blockRows R file)).flatten).filter
          (fun r => decide (t0 ≤ r.1) && decide (r.1 ≤ t1)) := by
  intro bs
  induction bs with
  | nil => intro _; rfl
  | cons b bs' ih =>
    intro hnil
    cases hsel : sel b with
    | true =>
      rw [List.filter_cons, if_pos (by rw [hsel])]
      rw [List.map_cons, List.map_cons, List.flatten_cons, List.flatten_cons,
        List.filter_append, List.filter_append,
        ih (fun c hc hcf => hnil c (by simp [hc]) hcf)]
    | false =>
      rw [List.filter_cons, if_neg (by rw [hsel]; simp)]
      rw [List.map_cons, List.flatten_cons, List.filter_append,
        hnil b (by simp) hsel, List.nil_append,
        ih (fun c hc hcf => hnil c (by simp [hc]) hcf)]

/-- C4: for every committed series state whose blocks satisfy the content
invariant (strictly increasing row timestamps spanning exactly
`[first_timestamp, last_timestamp]`) and whose blocks are disjoint and
ascending, `read_series` emits exactly the rows of the series whose
timestamp lies in the inclusive query range, in ascending timestamp order
(it equals the in-range filter of the concatenated block rows: the block
selection keeps exactly the intersecting blocks, rows below the range are
skipped, and the early stop at the first row above the range loses
nothing); in particular a query with `first_ts > last_ts` emits no rows. -/
theorem c4_read_series_range_filter (R : Nat) (st : MetaState)
    (file : Nat → Nat) (sid t0 t1 : Nat)
    (ht0 : t0 < 18446744073709551616) (ht1 : t1 < 18446744073709551616)
    (hpw : List.Pairwise (fun a c => a.last_timestamp < c.first_timestamp)
      (sidBlocks st sid))
    (hcw : ∀ b ∈ sidBlocks st sid, BlockContentWF R file b) :
    read_series R st file sid t0 t1 =
      (((sidBlocks st sid).map (blockRows R file)).flatten).filter
        (fun r => decide (t0 ≤ r.1) && decide (r.1 ≤ t1))
    ∧ (t1 < t0 → read_series R st file sid t0 t1 = []) := by
  have hmain : read_series R st file sid t0 t1 =
      (((sidBlocks st sid).map (blockRows R file)).flatten).filter
        (fun r => decide (t0 ≤ r.1) && decide (r.1 ≤ t1)) := by
    unfold read_series
    rw [blocks_for_range_eq]
    rw [readBlocksLoop_eq_filter t0 t1 R file _
      (fun b hb => hcw b (List.mem_of_mem_filter hb))
      (hpw.sublist (List.filter_sublist _))]
    exact flatten_filter_selected R file t0 t1 _ (sidBlocks st sid)
      (fun b hb hbf => unselected_no_rows R file t0 t1 b (hcw b hb) ht0 ht1 hbf)
  refine ⟨hmain, ?_⟩
  intro hlt
  rw [hmain, List.filter_eq_nil_iff]
  intro r _
  simp only [Bool.and_eq_true, decide_eq_true_eq]
  omega

/-- Witness for C4: on a two-block series (rows at timestamps 5, 10, 20),
reading [0, 12] emits exactly the rows at 5 and 10 with their payloads,
and reading with first_ts = 30 > last_ts = 12 emits nothing. -/
theorem c4_read_series_range_filter_witness :
    read_series 9 mdRead fileEx 1 0 12 = [(5, [50]), (10, [60])]
    ∧ read_series 9 mdRead fileEx 1 30 12 = [] := by
  have hsb : sidBlocks mdRead 1 = mdRead.series_blocks := by decide
  have hcw : ∀ b ∈ sidBlocks mdRead 1, BlockContentWF 9 fileEx b := by
    rw [hsb]
    intro b hb
    rcases List.mem_cons.mp hb with rfl | hb2
    · refine ⟨by decide, by decide, ?_, by decide, by decide⟩
      have hts : blockTs 9 fileEx
          { series_id := 1, generation := 1, first_timestamp := 5,
            last_timestamp := 10, offset := 0, capacity := 18, size := 18 }
          = [5, 10] := by decide
      rw [hts]
      exact List.chain'_cons.mpr ⟨by decide, List.chain'_singleton _⟩
    · simp only [List.mem_singleton] at hb2
      subst hb2
      refine ⟨by decide, by decide, ?_, by decide, by decide⟩
      have hts : blockTs 9 fileEx
          { series_id := 1, generation := 1, first_timestamp := 20,
            last_timestamp := 20, offset := 18, capacity := 9, size := 9 }
          = [20] := by decide
      rw [hts]
      exact List.chain'_singleton _
  have hpw : List.Pairwise (fun a c => a.last_timestamp < c.first_timestamp)
      (sidBlocks mdRead 1) := by
    rw [hsb]
    refine List.Pairwise.cons ?_ (List.Pairwise.cons ?_ List.Pairwise.nil)
    · intro a' ha'
      simp only [List.mem_singleton] at ha'
      subst ha'
      decide
    · intro a' ha'
      simp at ha'
  have h1 := c4_read_series_range_filter 9 mdRead fileEx 1 0 12
    (by decide) (by decide) hpw hcw
  have h2 := c4_read_series_range_filter 9 mdRead fileEx 1 30 12
    (by decide) (by decide) hpw hcw
  exact ⟨by rw [h1.1]; decide, h2.2 (by decide)⟩
